import Mathlib

/-!
# Verification of the news-headline sentiment pipeline

A shallow embedding of the pipeline in `app.py`: ingestion of feed entries
(`fetch_headlines`), sentiment labelling (`score_sentiment`), the keyword
filter, time-window filtering with bucketing and smoothing, and the
per-source summary table.

Modelling conventions:
* Timestamps are UTC minutes since an arbitrary epoch, as `Int`.
* Float columns (`compound` and the VADER sub-scores) are `ℚ`.
* The VADER analyser and the timestamp parser are external libraries; they
  enter as function parameters (`sia : String → Scores`,
  `parse : String → Option Int`), so every theorem is uniform in them.
* pandas group-by sorts group keys ascending. Descending `sort_values` is
  modelled after pandas `nargsort`: reverse the rows, argsort ascending,
  reverse again. numpy's default quicksort argsort is documented as not
  stable, so the argsort enters the model as a parameter constrained only
  by its contract (`IsAscSortOf`: a permutation, ascending in the key),
  and the ordering theorem quantifies over every such realization.
-/

/-- A raw feed entry as seen by the feed parser: `title`, `link`, and the
raw published string (already the published/updated fallback; empty when
the feed gave neither). -/
structure Entry where
  title : String
  link : String
  published : String
deriving DecidableEq

/-- One row appended by `fetch_headlines` before deduplication and
timestamp normalisation: source display name, stripped title, link, raw
published string. -/
structure Row where
  source : String
  title : String
  link : String
  published : String
deriving DecidableEq

/-- A normalised headline record: the `Row` fields plus the normalised
timestamp `published_dt` (always defined) and the `imputed_time` flag. -/
structure HeadlineRecord where
  source : String
  title : String
  link : String
  published : String
  published_dt : Int
  imputed_time : Bool
deriving DecidableEq

/-- One fetched feed: the source name paired with `none` when
`feedparser.parse` failed for that source (the `except: continue` branch)
or `some entries` on success. -/
abbrev Feed := String × Option (List Entry)

/-- Python's `str.strip()`: drop leading and trailing whitespace. -/
def pyStrip (s : String) : String :=
  ⟨((s.data.dropWhile Char.isWhitespace).reverse.dropWhile Char.isWhitespace).reverse⟩

/-- The rows contributed by a single source: nothing on fetch failure;
otherwise the first 50 entries, keeping those with a non-empty stripped
title. -/
def sourceRows : Feed → List Row
  | (_, none) => []
  | (name, some entries) =>
    (entries.take 50).filterMap fun e =>
      if pyStrip e.title = "" then none
      else some ⟨name, pyStrip e.title, e.link, e.published⟩

/-- All rows of the batch, in source-then-entry order. -/
def collectRows (feeds : List Feed) : List Row :=
  feeds.flatMap sourceRows

/-- `drop_duplicates(subset=["title"])` with the default `keep="first"`:
drop a row whose title was already seen. -/
def dedupAux (seen : List String) : List Row → List Row
  | [] => []
  | r :: rs =>
    if r.title ∈ seen then dedupAux seen rs
    else r :: dedupAux (r.title :: seen) rs

/-- Batch-wide deduplication by exact title. -/
def dropDuplicatesByTitle (rows : List Row) : List Row :=
  dedupAux [] rows

/-- Timestamp normalisation of one row: a parseable `published` string
gives the parsed UTC value with `imputed_time = false`; otherwise the
batch-wide `now` with `imputed_time = true` (`to_datetime(errors="coerce")`
followed by `fillna(now_utc)`). -/
def normaliseRow (parse : String → Option Int) (now : Int) (r : Row) : HeadlineRecord :=
  match parse r.published with
  | some t => ⟨r.source, r.title, r.link, r.published, t, false⟩
  | none => ⟨r.source, r.title, r.link, r.published, now, true⟩

/-- `fetch_headlines`: collect rows per source, deduplicate by title, then
normalise timestamps against a single batch-wide `now`. -/
def fetch_headlines (parse : String → Option Int) (now : Int) (feeds : List Feed) :
    List HeadlineRecord :=
  (dropDuplicatesByTitle (collectRows feeds)).map (normaliseRow parse now)

/-- The four VADER polarity sub-scores for one title. -/
structure Scores where
  neg : ℚ
  neu : ℚ
  pos : ℚ
  compound : ℚ
deriving DecidableEq

/-- A scored record: the headline fields, the four sub-scores, and the
threshold label. -/
structure ScoredRecord where
  source : String
  title : String
  link : String
  published : String
  published_dt : Int
  imputed_time : Bool
  neg : ℚ
  neu : ℚ
  pos : ℚ
  compound : ℚ
  label : String
deriving DecidableEq

/-- The labelling closure `lab` inside `score_sentiment`: negative first,
then positive, else neutral; both comparisons are inclusive. -/
def lab (neg_thresh pos_thresh c : ℚ) : String :=
  if c ≤ neg_thresh then "negative"
  else if pos_thresh ≤ c then "positive"
  else "neutral"

/-- Score a single record: attach the analyser's sub-scores and the label
computed from `compound`. -/
def scoreRecord (sia : String → Scores) (neg_thresh pos_thresh : ℚ)
    (r : HeadlineRecord) : ScoredRecord :=
  ⟨r.source, r.title, r.link, r.published, r.published_dt, r.imputed_time,
   (sia r.title).neg, (sia r.title).neu, (sia r.title).pos, (sia r.title).compound,
   lab neg_thresh pos_thresh (sia r.title).compound⟩

/-- `score_sentiment`: score every record. -/
def score_sentiment (sia : String → Scores) (neg_thresh pos_thresh : ℚ)
    (recs : List HeadlineRecord) : List ScoredRecord :=
  recs.map (scoreRecord sia neg_thresh pos_thresh)

/-- A fixed analyser used to instantiate theorems on concrete inputs. -/
def siaConst (c : ℚ) : String → Scores := fun _ => ⟨0, 1, 0, c⟩

/-- A concrete headline record for witnesses. -/
def hrExample : HeadlineRecord :=
  ⟨"BBC News (Top stories)", "Disaster strikes region", "", "", 0, false⟩

/-- The scored form of `hrExample` under the constant analyser `siaConst (-1)`
and thresholds `(-1, 1)`. -/
def srExample : ScoredRecord :=
  scoreRecord (siaConst (-1)) (-1) 1 hrExample

/-- A concrete scored record for witnesses about crossed thresholds:
compound `0` under crossed thresholds `neg_thresh = 1 > pos_thresh = -1`. -/
def srCross : ScoredRecord :=
  scoreRecord (siaConst 0) 1 (-1) hrExample

/-- A token of a compiled regular-expression pattern. The keyword filter
calls `Series.str.contains(kw, case=False, na=False)`, whose default is
`regex=True`, i.e. `re.search` with `re.IGNORECASE`. We model the fragment
of `re` patterns built from literal characters and the wildcard `.`;
keywords containing no regex metacharacter compile to all-literal
patterns. -/
inductive PatTok where
  | lit (c : Char)
  | dot
deriving DecidableEq

/-- Whether one pattern token matches one character: literals match up to
ASCII case (`re.IGNORECASE`), `.` matches anything but a newline. -/
def tokMatches : PatTok → Char → Bool
  | .lit c, d => c.toLower == d.toLower
  | .dot, d => d != '\n'

/-- Whether the pattern matches a prefix of the character list. -/
def matchesAt : List PatTok → List Char → Bool
  | [], _ => true
  | _ :: _, [] => false
  | p :: ps, c :: cs => tokMatches p c && matchesAt ps cs

/-- `re.search`: the pattern matches at some position of the text. -/
def searchFrom (ps : List PatTok) : List Char → Bool
  | [] => matchesAt ps []
  | c :: cs => matchesAt ps (c :: cs) || searchFrom ps cs

/-- The `re` metacharacters of Python. -/
def regexMeta : List Char :=
  ['.', '^', '$', '*', '+', '?', '\x7b', '\x7d', '[', ']', '\\', '|', '(', ')']

/-- Compile a keyword into a pattern; faithful for keywords whose only
metacharacter is `.`. -/
def compilePattern (kw : String) : List PatTok :=
  kw.data.map fun c => if c = '.' then .dot else .lit c

/-- Whether the title matches the keyword, as the pandas call does. -/
def kwMatches (kw title : String) : Bool :=
  searchFrom (compilePattern kw) title.data

/-- The keyword filter of `main`: a non-empty keyword keeps the records
whose title matches it. -/
def keywordFilter (kw : String) (recs : List HeadlineRecord) : List HeadlineRecord :=
  if kw = "" then recs else recs.filter fun r => kwMatches kw r.title

/-- Case-insensitive substring containment, the spec's wording for the
keyword filter (to be compared with the code's `kwMatches`). -/
def containsCI (hay needle : String) : Prop :=
  (needle.data.map Char.toLower) <:+: (hay.data.map Char.toLower)

instance containsCI.dec (hay needle : String) : Decidable (containsCI hay needle) := by
  unfold containsCI
  infer_instance

/-- C1: the label assigned by `score_sentiment` is negative when
`compound ≤ neg_thresh`, otherwise positive when `compound ≥ pos_thresh`,
otherwise neutral; and at thresholds `(-0.05, 0.05)` the boundary values
`-0.05`, `0.05`, `0.0` give negative, positive, neutral respectively. -/
theorem score_sentiment_label_policy (sia : String → Scores)
    (neg_thresh pos_thresh : ℚ) (recs : List HeadlineRecord) (r : ScoredRecord)
    (hr : r ∈ score_sentiment sia neg_thresh pos_thresh recs) :
    ((r.compound ≤ neg_thresh → r.label = "negative") ∧
      (¬ r.compound ≤ neg_thresh → pos_thresh ≤ r.compound → r.label = "positive") ∧
      (¬ r.compound ≤ neg_thresh → ¬ pos_thresh ≤ r.compound → r.label = "neutral")) ∧
    (lab (-5/100) (5/100) (-5/100) = "negative" ∧
      lab (-5/100) (5/100) (5/100) = "positive" ∧
      lab (-5/100) (5/100) 0 = "neutral") := by
  obtain ⟨h0, -, rfl⟩ := List.mem_map.mp hr
  refine ⟨⟨?_, ?_, ?_⟩, by norm_num [lab], by norm_num [lab], by norm_num [lab]⟩ <;>
    simp only [scoreRecord, lab] <;> intro h1 <;> try intro h2
  · rw [if_pos h1]
  · rw [if_neg h1, if_pos h2]
  · rw [if_neg h1, if_neg h2]

/-- Witness for C1 at a concrete record with compound `-1` and
thresholds `(-1, 1)`. -/
theorem score_sentiment_label_policy_witness :
    ((srExample.compound ≤ -1 → srExample.label = "negative") ∧
      (¬ srExample.compound ≤ -1 → (1 : ℚ) ≤ srExample.compound →
        srExample.label = "positive") ∧
      (¬ srExample.compound ≤ -1 → ¬ (1 : ℚ) ≤ srExample.compound →
        srExample.label = "neutral")) ∧
    (lab (-5/100) (5/100) (-5/100) = "negative" ∧
      lab (-5/100) (5/100) (5/100) = "positive" ∧
      lab (-5/100) (5/100) 0 = "neutral") :=
  score_sentiment_label_policy (siaConst (-1)) (-1) 1
    [hrExample] srExample (List.mem_singleton.mpr rfl)

/-- C10: with crossed thresholds (`neg_thresh > pos_thresh`),
`score_sentiment` raises no error (it is total) and a compound satisfying
both branch tests is labelled negative, because the negative test runs
first. -/
theorem crossed_thresholds_negative_wins (sia : String → Scores)
    (neg_thresh pos_thresh : ℚ) (recs : List HeadlineRecord) (r : ScoredRecord)
    (_hcross : pos_thresh < neg_thresh)
    (hr : r ∈ score_sentiment sia neg_thresh pos_thresh recs)
    (hneg : r.compound ≤ neg_thresh) (hpos : pos_thresh ≤ r.compound) :
    r.label = "negative" := by
  obtain ⟨h0, -, rfl⟩ := List.mem_map.mp hr
  simp only [scoreRecord, lab] at hneg ⊢
  rw [if_pos hneg]

/-- Witness for C10 at crossed thresholds `(neg, pos) = (1, -1)` and
compound `0`. -/
theorem crossed_thresholds_negative_wins_witness :
    srCross.label = "negative" :=
  crossed_thresholds_negative_wins (siaConst 0) 1 (-1)
    [hrExample] srCross (by decide) (List.mem_singleton.mpr rfl)
    (by decide) (by decide)

/-- `normaliseRow` keeps the title. -/
theorem normaliseRow_title (parse : String → Option Int) (now : Int) (r : Row) :
    (normaliseRow parse now r).title = r.title := by
  unfold normaliseRow
  cases parse r.published <;> rfl

/-- `normaliseRow` keeps the raw published string. -/
theorem normaliseRow_published (parse : String → Option Int) (now : Int) (r : Row) :
    (normaliseRow parse now r).published = r.published := by
  unfold normaliseRow
  cases parse r.published <;> rfl

/-- The key deduplication invariant, generalised over the seen-set. -/
theorem dedupAux_filter (t : String) :
    ∀ (rows : List Row) (seen : List String),
    (dedupAux seen rows).filter (fun r => r.title == t)
      = if t ∈ seen then [] else (rows.filter (fun r => r.title == t)).take 1 := by
  intro rows
  induction rows with
  | nil => intro seen; simp [dedupAux]
  | cons r rs ih =>
    intro seen
    rw [dedupAux]
    by_cases hseen : r.title ∈ seen
    · rw [if_pos hseen, ih]
      by_cases ht : t ∈ seen
      · simp [ht]
      · have hrt : ¬ r.title = t := fun h => ht (h ▸ hseen)
        simp [ht, List.filter_cons, hrt]
    · rw [if_neg hseen, List.filter_cons, ih]
      by_cases hrt : r.title = t
      · subst hrt
        simp [hseen, List.filter_cons]
      · have htr : ¬ t = r.title := fun h => hrt h.symm
        by_cases ht : t ∈ seen <;> simp [ht, hrt, htr, List.filter_cons]

/-- C4: deduplication is by exact (case-sensitive) title equality across
the whole batch, keeping the first occurrence in source-then-entry order:
for every title, the fetched records with that title are exactly the first
collected row with that title (if any), normalised. -/
theorem fetch_headlines_dedup_first_occurrence (parse : String → Option Int)
    (now : Int) (feeds : List Feed) (t : String) :
    (fetch_headlines parse now feeds).filter (fun r => r.title == t)
      = (((collectRows feeds).filter (fun r => r.title == t)).take 1).map
          (normaliseRow parse now) := by
  unfold fetch_headlines dropDuplicatesByTitle
  rw [List.filter_map]
  have hpred : ∀ r : Row,
      ((fun r : HeadlineRecord => r.title == t) ∘ normaliseRow parse now) r
        = (fun r : Row => r.title == t) r := by
    intro r
    simp [Function.comp, normaliseRow_title]
  rw [List.filter_congr (fun r _ => hpred r), dedupAux_filter, if_neg (List.not_mem_nil t),
    List.map_take]

/-- C5: timestamp normalisation. Each fetched record with an unparseable
or empty raw published string carries `imputed_time = true` and the single
batch-wide `now`; otherwise `imputed_time = false` and the parsed value.
`published_dt` is total (`Int`-valued), hence never null. -/
theorem fetch_headlines_timestamps (parse : String → Option Int) (now : Int)
    (feeds : List Feed) (hempty : parse "" = none) (r : HeadlineRecord)
    (hr : r ∈ fetch_headlines parse now feeds) :
    (parse r.published = none → r.imputed_time = true ∧ r.published_dt = now) ∧
    (∀ ts : Int, parse r.published = some ts →
      r.imputed_time = false ∧ r.published_dt = ts) ∧
    (r.published = "" → r.imputed_time = true ∧ r.published_dt = now) := by
  obtain ⟨row, -, rfl⟩ := List.mem_map.mp hr
  rw [normaliseRow_published]
  cases h : parse row.published with
  | none =>
    refine ⟨fun _ => ?_, fun ts hts => Option.noConfusion hts, fun _ => ?_⟩ <;>
      simp [normaliseRow, h]
  | some ts0 =>
    refine ⟨fun hn => Option.noConfusion hn, fun ts hts => ?_, fun hpub => ?_⟩
    · cases hts
      simp [normaliseRow, h]
    · rw [hpub, hempty] at h
      cases h

/-- A concrete parser for witnesses: only `"2024"` parses. -/
def parseExample : String → Option Int :=
  fun s => if s = "2024" then some 100 else none

/-- A concrete feed batch for witnesses: one parseable timestamp, one
empty one. -/
def feedsExample : List Feed :=
  [("BBC News (Top stories)", some [⟨"Markets rally on good news", "", "2024"⟩,
    ⟨"City council meets Tuesday", "", ""⟩])]

/-- Witness for C5 at a record whose raw published string is empty. -/
theorem fetch_headlines_timestamps_witness :
    (parseExample (normaliseRow parseExample 7
        ⟨"BBC News (Top stories)", "City council meets Tuesday", "", ""⟩).published = none →
      (normaliseRow parseExample 7
        ⟨"BBC News (Top stories)", "City council meets Tuesday", "", ""⟩).imputed_time = true ∧
      (normaliseRow parseExample 7
        ⟨"BBC News (Top stories)", "City council meets Tuesday", "", ""⟩).published_dt = 7) ∧
    (∀ ts : Int, parseExample (normaliseRow parseExample 7
        ⟨"BBC News (Top stories)", "City council meets Tuesday", "", ""⟩).published = some ts →
      (normaliseRow parseExample 7
        ⟨"BBC News (Top stories)", "City council meets Tuesday", "", ""⟩).imputed_time = false ∧
      (normaliseRow parseExample 7
        ⟨"BBC News (Top stories)", "City council meets Tuesday", "", ""⟩).published_dt = ts) ∧
    ((normaliseRow parseExample 7
        ⟨"BBC News (Top stories)", "City council meets Tuesday", "", ""⟩).published = "" →
      (normaliseRow parseExample 7
        ⟨"BBC News (Top stories)", "City council meets Tuesday", "", ""⟩).imputed_time = true ∧
      (normaliseRow parseExample 7
        ⟨"BBC News (Top stories)", "City council meets Tuesday", "", ""⟩).published_dt = 7) :=
  fetch_headlines_timestamps parseExample 7 feedsExample (by decide)
    (normaliseRow parseExample 7
      ⟨"BBC News (Top stories)", "City council meets Tuesday", "", ""⟩)
    (by decide)

/-- The empty keyword pattern matches every title. -/
theorem kwMatches_empty (title : String) : kwMatches "" title = true := by
  unfold kwMatches compilePattern
  cases title.data with
  | nil => rfl
  | cons c cs => simp [searchFrom, matchesAt]

/-- C2: empty stages stay empty and raise nothing (all stage functions are
total): zero sources give an empty batch, sources contributing zero
records give an empty batch, and a keyword matching no title filters down
to the empty list. -/
theorem empty_stages (parse : String → Option Int) (now : Int) :
    (fetch_headlines parse now [] = []) ∧
    (∀ feeds : List Feed, (∀ f ∈ feeds, sourceRows f = []) →
      fetch_headlines parse now feeds = []) ∧
    (∀ (kw : String) (recs : List HeadlineRecord),
      (∀ r ∈ recs, kwMatches kw r.title = false) → keywordFilter kw recs = []) := by
  refine ⟨rfl, fun feeds hfeeds => ?_, fun kw recs hkw => ?_⟩
  · have : collectRows feeds = [] := by
      unfold collectRows
      induction feeds with
      | nil => rfl
      | cons f fs ih =>
        rw [List.flatMap_cons, hfeeds f (List.mem_cons_self _ _), List.nil_append]
        exact ih fun g hg => hfeeds g (List.mem_cons_of_mem _ hg)
    unfold fetch_headlines dropDuplicatesByTitle
    rw [this]
    rfl
  · unfold keywordFilter
    by_cases hkw0 : kw = ""
    · subst hkw0
      rw [if_pos rfl]
      cases recs with
      | nil => rfl
      | cons r rs =>
        have := hkw r (List.mem_cons_self _ _)
        rw [kwMatches_empty] at this
        cases this
    · rw [if_neg hkw0]
      exact List.filter_eq_nil_iff.mpr (by simpa using hkw)

/-- Witness for C2: a failed source contributes nothing; a keyword
matching no title empties the table. -/
theorem empty_stages_witness :
    fetch_headlines parseExample 7 [("Reuters (World)", none)] = [] ∧
    keywordFilter "zzz" [hrExample] = [] :=
  ⟨(empty_stages parseExample 7).2.1 [("Reuters (World)", none)] (by decide),
   (empty_stages parseExample 7).2.2 "zzz" [hrExample] (by decide)⟩

/-- An all-literal pattern matches a prefix of the text exactly when the
lowered pattern characters are a prefix of the lowered text. -/
theorem matchesAt_lit (xs : List Char) :
    ∀ cs : List Char,
    (matchesAt (xs.map PatTok.lit) cs = true ↔
      ∃ t, (xs.map Char.toLower) ++ t = cs.map Char.toLower) := by
  induction xs with
  | nil => intro cs; simp [matchesAt]
  | cons x xs ih =>
    intro cs
    cases cs with
    | nil => simp [matchesAt]
    | cons c cs' =>
      simp only [List.map_cons, matchesAt, tokMatches, Bool.and_eq_true, beq_iff_eq, ih cs',
        List.cons_append, List.cons.injEq]
      constructor
      · rintro ⟨h1, t, h2⟩
        exact ⟨t, h1, h2⟩
      · rintro ⟨t, h1, h2⟩
        exact ⟨h1, t, h2⟩

/-- A list is a contiguous part of `a :: l₂` iff it is a prefix of it or a
contiguous part of `l₂`. -/
theorem isInf_cons_iff {α : Type} (l l₂ : List α) (a : α) :
    l <:+: (a :: l₂) ↔ (∃ t, l ++ t = a :: l₂) ∨ l <:+: l₂ := by
  constructor
  · rintro ⟨s, t, h⟩
    cases s with
    | nil => exact Or.inl ⟨t, by simpa using h⟩
    | cons b s' =>
      simp only [List.cons_append, List.cons.injEq] at h
      exact Or.inr ⟨s', t, h.2⟩
  · rintro (⟨t, h⟩ | ⟨s, t, h⟩)
    · exact ⟨[], t, by simpa using h⟩
    · exact ⟨a :: s, t, by simp only [List.cons_append, h]⟩

/-- Searching an all-literal pattern is case-insensitive substring
containment. -/
theorem searchFrom_lit (xs : List Char) :
    ∀ cs : List Char,
    (searchFrom (xs.map PatTok.lit) cs = true ↔
      (xs.map Char.toLower) <:+: (cs.map Char.toLower)) := by
  intro cs
  induction cs with
  | nil =>
    simp only [searchFrom, matchesAt_lit, List.map_nil, List.append_eq_nil]
    constructor
    · rintro ⟨t, h1, h2⟩
      exact ⟨[], [], by simp [h1, h2]⟩
    · rintro ⟨s, t, h⟩
      simp only [List.append_eq_nil] at h
      exact ⟨[], h.1.2, by simp⟩
  | cons c cs' ih =>
    simp only [searchFrom, Bool.or_eq_true, matchesAt_lit, ih, List.map_cons,
      isInf_cons_iff (xs.map Char.toLower) (cs'.map Char.toLower) c.toLower]

/-- A concrete record whose title is `"abc"`. -/
def hrAbc : HeadlineRecord := ⟨"BBC News (Top stories)", "abc", "", "", 0, false⟩

/-- C7 counterexample: the keyword `"a.c"` is not a substring of the title
`"abc"` in any case, yet the filter keeps the record, because the keyword
is interpreted as a regular expression (`str.contains` defaults to
`regex=True`) and `.` matches `b`. -/
theorem keywordFilter_not_substring_cex :
    keywordFilter "a.c" [hrAbc] = [hrAbc] ∧ ¬ containsCI "abc" "a.c" := by
  constructor
  · decide
  · decide

/-- C7 (amended): the keyword filter keeps exactly the records whose title
matches the keyword as a case-insensitive regular expression; whenever the
keyword contains no regex metacharacter, that coincides with
case-insensitive substring containment of the keyword in the title. -/
theorem keywordFilter_substring_of_no_meta (kw : String)
    (hmeta : ∀ c ∈ kw.data, c ∉ regexMeta) (recs : List HeadlineRecord) :
    keywordFilter kw recs
      = recs.filter (fun r => decide (containsCI r.title kw)) := by
  have hdot : ∀ c ∈ kw.data, ¬ c = '.' := by
    intro c hc h
    exact hmeta c hc (h ▸ (by decide : ('.' : Char) ∈ regexMeta))
  have hcompile : compilePattern kw = kw.data.map PatTok.lit := by
    unfold compilePattern
    exact List.map_congr_left fun c hc => if_neg (hdot c hc)
  have hpt : ∀ title : String, kwMatches kw title = decide (containsCI title kw) := by
    intro title
    have hiff : kwMatches kw title = true ↔ containsCI title kw := by
      unfold kwMatches containsCI
      rw [hcompile]
      exact searchFrom_lit kw.data title.data
    cases hb : kwMatches kw title
    · rw [hb] at hiff
      simp only [Bool.false_eq_true, false_iff] at hiff
      simp [hiff]
    · rw [hb] at hiff
      simp only [true_iff] at hiff
      simp [hiff]
  unfold keywordFilter
  by_cases hkw0 : kw = ""
  · subst hkw0
    rw [if_pos rfl]
    have : ∀ r : HeadlineRecord, decide (containsCI r.title "") = true := by
      intro r
      simp only [decide_eq_true_eq, containsCI]
      exact ⟨[], r.title.data.map Char.toLower, by simp⟩
    exact (List.filter_eq_self.mpr fun r _ => this r).symm
  · rw [if_neg hkw0]
    exact List.filter_congr fun r _ => hpt r.title

/-- A concrete record whose title contains `"rally"` in lower case. -/
def hrRally : HeadlineRecord :=
  ⟨"BBC News (Top stories)", "Markets rally on good news", "", "", 0, false⟩

/-- Witness for C7 (amended) at the metacharacter-free keyword `"RALLY"`:
regex filtering coincides with case-insensitive substring filtering. -/
theorem keywordFilter_substring_of_no_meta_witness :
    keywordFilter "RALLY" [hrRally]
      = [hrRally].filter (fun r => decide (containsCI r.title "RALLY")) :=
  keywordFilter_substring_of_no_meta "RALLY" (by decide) [hrRally]

/-- Lexicographic code-point comparison of character lists: Python's
string `<`, and also Lean's `List.lt` on `Char` (proved below). -/
def charListLtB : List Char → List Char → Bool
  | [], [] => false
  | [], _ :: _ => true
  | _ :: _, [] => false
  | a :: as, b :: bs => if a < b then true else if b < a then false else charListLtB as bs

/-- Executable strict order on strings (code-point lexicographic). -/
def strLtB (a b : String) : Bool := charListLtB a.data b.data

/-- Executable `≤` on strings: `a ≤ b ↔ ¬ b < a`. -/
def strLeB (a b : String) : Bool := !(strLtB b a)

/-- Executable `≤` on integers. -/
def intLeB (a b : Int) : Bool := decide (a ≤ b)

/-- Stable insertion into an ascending list: the new element goes after
every element `≤` it. numpy's argsort on the small arrays at hand is
insertion sort, which is stable; this models it. -/
def insertLe {α : Type} (le : α → α → Bool) (x : α) : List α → List α
  | [] => [x]
  | y :: ys => if le y x then y :: insertLe le x ys else x :: y :: ys

/-- Stable ascending insertion sort, processing the input left to right. -/
def insertionSort {α : Type} (le : α → α → Bool) (l : List α) : List α :=
  l.foldl (fun acc x => insertLe le x acc) []

/-- First occurrence of each distinct value, in first-appearance order. -/
def dedupFirstAux {α : Type} [DecidableEq α] (seen : List α) : List α → List α
  | [] => []
  | x :: xs =>
    if x ∈ seen then dedupFirstAux seen xs else x :: dedupFirstAux (x :: seen) xs

/-- The distinct values of a list, keeping first occurrences. -/
def dedupFirst {α : Type} [DecidableEq α] (l : List α) : List α := dedupFirstAux [] l

/-- One row of the time series `ts`: a `(source, bucket)` group with its
mean compound and the smoothed value added by the rolling transform. -/
structure TimeBucket where
  source : String
  bucket : Int
  compound : ℚ
  smoothed : ℚ
deriving DecidableEq

/-- Arithmetic mean (pandas `mean`; the pipeline only applies it to
non-empty groups). -/
def mean (l : List ℚ) : ℚ := l.sum / l.length

/-- `Series.dt.floor(bin_size)`: floor the timestamp toward the earlier
multiple of `size` (timestamps and sizes in minutes). -/
def floorTo (size t : Int) : Int := (Int.fdiv t size) * size

/-- The time-window filter of `main`: keep `published_dt` within
`[now - lookback_hours, now]` (both inclusive), then, if requested, drop
imputed timestamps. -/
def timeFilter (now lookback_hours : Int) (exclude_imputed : Bool)
    (recs : List ScoredRecord) : List ScoredRecord :=
  if exclude_imputed then
    (recs.filter fun r =>
      decide (now - lookback_hours * 60 ≤ r.published_dt ∧ r.published_dt ≤ now)).filter
        fun r => !r.imputed_time
  else
    recs.filter fun r =>
      decide (now - lookback_hours * 60 ≤ r.published_dt ∧ r.published_dt ≤ now)

/-- `rolling(3, min_periods=1).mean()`: at index `k`, the mean of the
window formed by the current element and up to two preceding ones. -/
def rolling3 (l : List ℚ) : List ℚ :=
  (List.range l.length).map fun k => mean ((l.take (k + 1)).drop (k - 2))

/-- The ascending distinct bucket starts of a record list. -/
def bucketsOf (size : Int) (srecs : List ScoredRecord) : List Int :=
  insertionSort intLeB (dedupFirst (srecs.map fun r => floorTo size r.published_dt))

/-- The mean compound of the records falling into bucket `b`. -/
def bucketMean (size : Int) (srecs : List ScoredRecord) (b : Int) : ℚ :=
  mean ((srecs.filter fun r => floorTo size r.published_dt == b).map (·.compound))

/-- Zip a source's buckets, means and smoothed means into rows. -/
def zipWith3TB (s : String) : List Int → List ℚ → List ℚ → List TimeBucket
  | b :: bs, m :: ms, sm :: sms => ⟨s, b, m, sm⟩ :: zipWith3TB s bs ms sms
  | _, _, _ => []

/-- The rows of one source: ascending buckets, their group means, and the
rolling means over the ascending mean series. -/
def sourceBuckets (size : Int) (srecs : List ScoredRecord) (s : String) : List TimeBucket :=
  zipWith3TB s (bucketsOf size srecs) ((bucketsOf size srecs).map (bucketMean size srecs))
    (rolling3 ((bucketsOf size srecs).map (bucketMean size srecs)))

/-- The ascending distinct sources of a record list (pandas group keys are
sorted ascending). -/
def srcsOf (recs : List ScoredRecord) : List String :=
  insertionSort strLeB (dedupFirst (recs.map (·.source)))

/-- The time aggregation of `main`: window filter, then group by
`(source, bucket)` with mean compound (rows sorted ascending by the group
key), then the per-source rolling transform. -/
def aggregate_over_time (now lookback_hours size : Int) (exclude_imputed : Bool)
    (recs : List ScoredRecord) : List TimeBucket :=
  (srcsOf (timeFilter now lookback_hours exclude_imputed recs)).flatMap fun s =>
    sourceBuckets size
      ((timeFilter now lookback_hours exclude_imputed recs).filter fun r => r.source == s) s

/-- C8: time aggregation keeps exactly the records whose `published_dt`
lies in the closed interval `[now - lookback_hours, now]`, and
additionally drops the imputed ones when `exclude_imputed` is set. -/
theorem timeFilter_window (now lookback_hours : Int) (exclude_imputed : Bool)
    (recs : List ScoredRecord) (r : ScoredRecord) :
    r ∈ timeFilter now lookback_hours exclude_imputed recs ↔
      r ∈ recs ∧
        (now - lookback_hours * 60 ≤ r.published_dt ∧ r.published_dt ≤ now) ∧
        (exclude_imputed = true → r.imputed_time = false) := by
  unfold timeFilter
  cases exclude_imputed with
  | false => simp [List.mem_filter]
  | true =>
    simp [List.mem_filter, Bool.not_eq_true']
    tauto

/-- Every row zipped for source `s` carries source `s`. -/
theorem zipWith3TB_source (s : String) :
    ∀ (bs : List Int) (ms sms : List ℚ) (tb : TimeBucket),
    tb ∈ zipWith3TB s bs ms sms → tb.source = s := by
  intro bs
  induction bs with
  | nil => intro ms sms tb h; simp [zipWith3TB] at h
  | cons b bs ih =>
    intro ms sms tb h
    cases ms with
    | nil => simp [zipWith3TB] at h
    | cons m ms =>
      cases sms with
      | nil => simp [zipWith3TB] at h
      | cons sm sms =>
        simp only [zipWith3TB, List.mem_cons] at h
        rcases h with h1 | h2
        · rw [h1]
        · exact ih ms sms tb h2

/-- When the mean column is computed from the bucket column by `f`, every
zipped row's `compound` is `f` of its bucket. -/
theorem zipWith3TB_mean (s : String) (f : Int → ℚ) :
    ∀ (bs : List Int) (sms : List ℚ) (tb : TimeBucket),
    tb ∈ zipWith3TB s bs (bs.map f) sms → tb.compound = f tb.bucket := by
  intro bs
  induction bs with
  | nil => intro sms tb h; simp [zipWith3TB] at h
  | cons b bs ih =>
    intro sms tb h
    cases sms with
    | nil => simp [List.map_cons, zipWith3TB] at h
    | cons sm sms =>
      simp only [List.map_cons, zipWith3TB, List.mem_cons] at h
      rcases h with h1 | h2
      · rw [h1]
      · exact ih sms tb h2

/-- Projection of the compound column out of a fully zipped row list. -/
theorem zipWith3TB_map_compound (s : String) :
    ∀ (bs : List Int) (ms sms : List ℚ), bs.length = ms.length →
    ms.length = sms.length →
    (zipWith3TB s bs ms sms).map (·.compound) = ms := by
  intro bs
  induction bs with
  | nil =>
    intro ms sms h1 _
    cases ms with
    | nil => rfl
    | cons m ms => simp at h1
  | cons b bs ih =>
    intro ms sms h1 h2
    cases ms with
    | nil => simp at h1
    | cons m ms =>
      cases sms with
      | nil => simp at h2
      | cons sm sms =>
        simp only [zipWith3TB, List.map_cons]
        rw [ih ms sms (by simpa using h1) (by simpa using h2)]

/-- Projection of the smoothed column out of a fully zipped row list. -/
theorem zipWith3TB_map_smoothed (s : String) :
    ∀ (bs : List Int) (ms sms : List ℚ), bs.length = ms.length →
    ms.length = sms.length →
    (zipWith3TB s bs ms sms).map (·.smoothed) = sms := by
  intro bs
  induction bs with
  | nil =>
    intro ms sms h1 h2
    cases ms with
    | nil =>
      cases sms with
      | nil => rfl
      | cons sm sms => simp at h2
    | cons m ms => simp at h1
  | cons b bs ih =>
    intro ms sms h1 h2
    cases ms with
    | nil => simp at h1
    | cons m ms =>
      cases sms with
      | nil => simp at h2
      | cons sm sms =>
        simp only [zipWith3TB, List.map_cons]
        rw [ih ms sms (by simpa using h1) (by simpa using h2)]

/-- Inserting permutes: the result is the element pushed onto the list. -/
theorem insertLe_perm {α : Type} (le : α → α → Bool) (x : α) :
    ∀ l : List α, List.Perm (insertLe le x l) (x :: l) := by
  intro l
  induction l with
  | nil => exact List.Perm.refl _
  | cons y ys ih =>
    unfold insertLe
    by_cases h : le y x = true
    · rw [if_pos h]
      exact (ih.cons y).trans (List.Perm.swap x y ys)
    · rw [if_neg h]

/-- The insertion fold permutes the processed elements onto the
accumulator. -/
theorem foldl_insertLe_perm {α : Type} (le : α → α → Bool) :
    ∀ (l acc : List α), List.Perm (l.foldl (fun a x => insertLe le x a) acc) (l ++ acc) := by
  intro l
  induction l with
  | nil => intro acc; exact List.Perm.refl _
  | cons x xs ih =>
    intro acc
    rw [List.foldl_cons]
    exact (ih (insertLe le x acc)).trans
      ((List.Perm.append_left xs (insertLe_perm le x acc)).trans List.perm_middle)

/-- Insertion sort permutes its input. -/
theorem insertionSort_perm {α : Type} (le : α → α → Bool) (l : List α) :
    List.Perm (insertionSort le l) l := by
  have h := foldl_insertLe_perm le l []
  rwa [List.append_nil] at h

/-- Nothing kept by `dedupFirstAux` was already seen. -/
theorem dedupFirstAux_not_mem_seen {α : Type} [DecidableEq α] :
    ∀ (l seen : List α) (x : α), x ∈ dedupFirstAux seen l → x ∉ seen := by
  intro l
  induction l with
  | nil => intro seen x h; simp [dedupFirstAux] at h
  | cons y ys ih =>
    intro seen x h
    rw [dedupFirstAux] at h
    by_cases hy : y ∈ seen
    · rw [if_pos hy] at h
      exact ih seen x h
    · rw [if_neg hy] at h
      rcases List.mem_cons.mp h with h1 | h2
      · rw [h1]; exact hy
      · intro hx
        exact ih (y :: seen) x h2 (List.mem_cons_of_mem y hx)

/-- The kept first occurrences are pairwise distinct. -/
theorem dedupFirstAux_nodup {α : Type} [DecidableEq α] :
    ∀ (l seen : List α), (dedupFirstAux seen l).Nodup := by
  intro l
  induction l with
  | nil => intro seen; simp [dedupFirstAux]
  | cons y ys ih =>
    intro seen
    rw [dedupFirstAux]
    by_cases hy : y ∈ seen
    · rw [if_pos hy]; exact ih seen
    · rw [if_neg hy]
      refine List.nodup_cons.mpr ⟨fun hmem => ?_, ih (y :: seen)⟩
      exact dedupFirstAux_not_mem_seen ys (y :: seen) y hmem (List.mem_cons_self y seen)

/-- The distinct sources are pairwise distinct after sorting. -/
theorem srcsOf_nodup (recs : List ScoredRecord) : (srcsOf recs).Nodup :=
  (insertionSort_perm strLeB _).nodup_iff.mpr (dedupFirstAux_nodup _ [])

/-- Filtering a flat-map of per-source blocks by one source keeps exactly
that source's block (sources pairwise distinct). -/
theorem filter_flatMap_blocks (s : String) (g : String → List TimeBucket)
    (hsrc : ∀ s' (tb : TimeBucket), tb ∈ g s' → tb.source = s') :
    ∀ srcs : List String, srcs.Nodup →
    ((srcs.flatMap g).filter fun tb => tb.source == s)
      = if s ∈ srcs then g s else [] := by
  intro srcs
  induction srcs with
  | nil => intro _; simp
  | cons a srcs ih =>
    intro hnd
    rw [List.flatMap_cons, List.filter_append, ih (List.nodup_cons.mp hnd).2]
    by_cases has : a = s
    · subst has
      have h1 : (g a).filter (fun tb => tb.source == a) = g a :=
        List.filter_eq_self.mpr fun tb htb => by simp [hsrc a tb htb]
      have hnotin : a ∉ srcs := (List.nodup_cons.mp hnd).1
      simp [h1, hnotin]
    · have h1 : (g a).filter (fun tb => tb.source == s) = [] :=
        List.filter_eq_nil_iff.mpr fun tb htb => by simp [hsrc a tb htb, has]
      have has' : ¬ s = a := fun h => has h.symm
      simp [h1, List.mem_cons, has']

/-- Each aggregated row's `compound` is the mean of the compounds of the
windowed records of its `(source, bucket)` group. -/
theorem agg_mean_of_mem (now lb size : Int) (ex : Bool) (recs : List ScoredRecord)
    (tb : TimeBucket) (h : tb ∈ aggregate_over_time now lb size ex recs) :
    tb.compound = mean (((timeFilter now lb ex recs).filter fun r =>
      r.source == tb.source && floorTo size r.published_dt == tb.bucket).map
        (·.compound)) := by
  unfold aggregate_over_time at h
  rcases List.mem_flatMap.mp h with ⟨s, hs, htb⟩
  unfold sourceBuckets at htb
  have hsource : tb.source = s := zipWith3TB_source s _ _ _ tb htb
  have hcomp := zipWith3TB_mean s
    (bucketMean size ((timeFilter now lb ex recs).filter fun r => r.source == s)) _ _ tb htb
  rw [hcomp]
  unfold bucketMean
  rw [List.filter_filter, hsource]
  exact congrArg (fun t : List ScoredRecord => mean (t.map (fun x => x.compound)))
    (List.filter_congr fun r _ => Bool.and_comm (floorTo size r.published_dt == tb.bucket)
      (r.source == s))

/-- Keys already seen are all dropped. -/
theorem dedupFirstAux_all_seen {α : Type} [DecidableEq α] :
    ∀ (l seen : List α), (∀ x ∈ l, x ∈ seen) → dedupFirstAux seen l = [] := by
  intro l
  induction l with
  | nil => intro seen _; rfl
  | cons y ys ih =>
    intro seen h
    rw [dedupFirstAux, if_pos (h y (List.mem_cons_self y ys))]
    exact ih seen fun x hx => h x (List.mem_cons_of_mem y hx)

/-- A non-empty constant list has a single distinct value. -/
theorem dedupFirst_const {α : Type} [DecidableEq α] (s : α) :
    ∀ l : List α, l ≠ [] → (∀ x ∈ l, x = s) → dedupFirst l = [s] := by
  intro l hne hall
  cases l with
  | nil => exact absurd rfl hne
  | cons y ys =>
    have hy : y = s := hall y (List.mem_cons_self y ys)
    unfold dedupFirst
    rw [dedupFirstAux, if_neg (List.not_mem_nil y),
      dedupFirstAux_all_seen ys [y] (fun x hx =>
        List.mem_singleton.mpr ((hall x (List.mem_cons_of_mem y hx)).trans hy.symm)), hy]

/-- The rolling mean of a single bucket is its own mean. -/
theorem rolling3_singleton (q : ℚ) : rolling3 [q] = [q] := by
  have h1 : List.range 1 = [0] := by decide
  simp [rolling3, mean, h1]

/-- Records of one source all falling into one bucket interval and into
the window produce exactly one `TimeBucket`, whose mean (and smoothed
mean) is the mean of their compounds. -/
theorem agg_uniform_single (now lb size : Int) (s : String) (b : Int)
    (recs : List ScoredRecord) (hne : recs ≠ [])
    (hsrc : ∀ r ∈ recs, r.source = s)
    (hfloor : ∀ r ∈ recs, floorTo size r.published_dt = b)
    (hwin : ∀ r ∈ recs, now - lb * 60 ≤ r.published_dt ∧ r.published_dt ≤ now) :
    aggregate_over_time now lb size false recs
      = [⟨s, b, mean (recs.map (·.compound)), mean (recs.map (·.compound))⟩] := by
  have htf : timeFilter now lb false recs = recs := by
    unfold timeFilter
    rw [if_neg Bool.false_ne_true]
    exact List.filter_eq_self.mpr fun r hr => by simpa using hwin r hr
  have hfilter : recs.filter (fun r => r.source == s) = recs :=
    List.filter_eq_self.mpr fun r hr => by simpa using hsrc r hr
  have hsrcs : srcsOf recs = [s] := by
    unfold srcsOf
    rw [dedupFirst_const s _ (fun h => hne (List.map_eq_nil_iff.mp h))
      (fun x hx => by
        rcases List.mem_map.mp hx with ⟨r, hr, rfl⟩
        exact hsrc r hr)]
    rfl
  have hbuckets : bucketsOf size recs = [b] := by
    unfold bucketsOf
    rw [dedupFirst_const b _ (fun h => hne (List.map_eq_nil_iff.mp h))
      (fun x hx => by
        rcases List.mem_map.mp hx with ⟨r, hr, rfl⟩
        exact hfloor r hr)]
    rfl
  have hbm : bucketMean size recs b = mean (recs.map (·.compound)) := by
    unfold bucketMean
    rw [List.filter_eq_self.mpr fun r hr => by simpa using hfloor r hr]
  unfold aggregate_over_time
  rw [htf, hsrcs, List.flatMap_cons, List.flatMap_nil, List.append_nil]
  unfold sourceBuckets
  rw [hfilter, hbuckets]
  simp only [List.map_cons, List.map_nil]
  rw [hbm, rolling3_singleton]
  rfl

/-- C9 (amended): records are bucketed by flooring `published_dt` toward
the earlier multiple of the bucket size and grouped by
`(source, bucket_start)`, each group's `mean_compound` being the
arithmetic mean of the group's compounds; three records of one source
timestamped 1 minute apart that lie in a single bucket interval (no
boundary straddled) fall into one `TimeBucket` whose mean is the mean of
their compounds. -/
theorem aggregate_floor_group_mean :
    (∀ (now lb size : Int) (ex : Bool) (recs : List ScoredRecord) (tb : TimeBucket),
      tb ∈ aggregate_over_time now lb size ex recs →
      tb.compound = mean (((timeFilter now lb ex recs).filter fun r =>
        r.source == tb.source && floorTo size r.published_dt == tb.bucket).map
          (·.compound))) ∧
    (∀ (now lb size : Int) (s : String) (b : Int) (recs : List ScoredRecord),
      recs ≠ [] → (∀ r ∈ recs, r.source = s) →
      (∀ r ∈ recs, floorTo size r.published_dt = b) →
      (∀ r ∈ recs, now - lb * 60 ≤ r.published_dt ∧ r.published_dt ≤ now) →
      aggregate_over_time now lb size false recs
        = [⟨s, b, mean (recs.map (·.compound)), mean (recs.map (·.compound))⟩]) :=
  ⟨agg_mean_of_mem, agg_uniform_single⟩

/-- Three concrete records of one source, 1 minute apart (13:04–13:06 in
minutes since midnight). -/
def tsRecA : ScoredRecord := ⟨"S", "a1", "", "", 784, false, 0, 0, 0, 1, "positive"⟩

/-- Second record, minute 785. -/
def tsRecB : ScoredRecord := ⟨"S", "a2", "", "", 785, false, 0, 0, 0, 2, "positive"⟩

/-- Third record, minute 786. -/
def tsRecC : ScoredRecord := ⟨"S", "a3", "", "", 786, false, 0, 0, 0, 3, "positive"⟩

/-- C9 counterexample: three records of one source timestamped 1 minute
apart (minutes 784, 785, 786) with 5-minute buckets land in TWO
TimeBuckets (bucket starts 780 and 785), not one, because they straddle a
bucket boundary. -/
theorem aggregate_straddle_cex :
    tsRecB.published_dt = tsRecA.published_dt + 1 ∧
    tsRecC.published_dt = tsRecB.published_dt + 1 ∧
    tsRecA.source = tsRecB.source ∧ tsRecB.source = tsRecC.source ∧
    (aggregate_over_time 800 1 5 false [tsRecA, tsRecB, tsRecC]).map (·.bucket)
      = [780, 785] := by
  refine ⟨rfl, rfl, rfl, rfl, ?_⟩
  decide

/-- Witness for C9 (amended) at three records 1 minute apart inside one
5-minute bucket interval (minutes 780, 781, 782). -/
theorem aggregate_floor_group_mean_witness :
    aggregate_over_time 800 1 5 false
        [⟨"S", "t1", "", "", 780, false, 0, 0, 0, 1, "positive"⟩,
         ⟨"S", "t2", "", "", 781, false, 0, 0, 0, 2, "positive"⟩,
         ⟨"S", "t3", "", "", 782, false, 0, 0, 0, 3, "positive"⟩]
      = [⟨"S", 780,
          mean ([(⟨"S", "t1", "", "", 780, false, 0, 0, 0, 1, "positive"⟩ : ScoredRecord),
            ⟨"S", "t2", "", "", 781, false, 0, 0, 0, 2, "positive"⟩,
            ⟨"S", "t3", "", "", 782, false, 0, 0, 0, 3, "positive"⟩].map (·.compound)),
          mean ([(⟨"S", "t1", "", "", 780, false, 0, 0, 0, 1, "positive"⟩ : ScoredRecord),
            ⟨"S", "t2", "", "", 781, false, 0, 0, 0, 2, "positive"⟩,
            ⟨"S", "t3", "", "", 782, false, 0, 0, 0, 3, "positive"⟩].map (·.compound))⟩] :=
  aggregate_floor_group_mean.2 800 1 5 "S" 780
    [⟨"S", "t1", "", "", 780, false, 0, 0, 0, 1, "positive"⟩,
     ⟨"S", "t2", "", "", 781, false, 0, 0, 0, 2, "positive"⟩,
     ⟨"S", "t3", "", "", 782, false, 0, 0, 0, 3, "positive"⟩]
    (by decide) (by decide) (by decide) (by decide)

/-- The rolling transform preserves length. -/
theorem rolling3_length (l : List ℚ) : (rolling3 l).length = l.length := by
  simp [rolling3]

/-- Per source, the smoothed column of the aggregate is the rolling mean
of its compound column. -/
theorem agg_filter_source_smoothed (now lb size : Int) (ex : Bool)
    (recs : List ScoredRecord) (s : String) :
    ((aggregate_over_time now lb size ex recs).filter fun tb => tb.source == s).map
        (·.smoothed)
      = rolling3 (((aggregate_over_time now lb size ex recs).filter
          fun tb => tb.source == s).map (·.compound)) := by
  unfold aggregate_over_time
  rw [filter_flatMap_blocks s
    (fun s' => sourceBuckets size
      (List.filter (fun r => r.source == s') (timeFilter now lb ex recs)) s')
    (fun s' tb htb => zipWith3TB_source s' _ _ _ tb htb) _ (srcsOf_nodup _)]
  by_cases hs : s ∈ srcsOf (timeFilter now lb ex recs)
  · rw [if_pos hs]
    unfold sourceBuckets
    rw [zipWith3TB_map_smoothed s _ _ _ (List.length_map _ _).symm (rolling3_length _).symm,
      zipWith3TB_map_compound s _ _ _ (List.length_map _ _).symm (rolling3_length _).symm]
  · rw [if_neg hs]
    simp [rolling3]

/-- The k-th rolling value is the mean of the window of the current and up
to two preceding elements. -/
theorem rolling3_getElem (l : List ℚ) (k : Nat) (hk : k < l.length) :
    (rolling3 l)[k]? = some (mean ((l.take (k + 1)).drop (k - 2))) := by
  unfold rolling3
  rw [List.getElem?_map, List.getElem?_range hk]
  rfl

/-- Round to four decimal places, scaled by 10⁴ (so `0.0667` is `667`). -/
def round4 (q : ℚ) : ℤ := ⌊q * 10000 + 1 / 2⌋

/-- The spec's example series. -/
theorem rolling3_example :
    rolling3 [1/10, 2/10, -1/10, 3/10] = [1/10, 3/20, 1/15, 2/15] := by
  have h4 : List.range 4 = [0, 1, 2, 3] := by decide
  norm_num [rolling3, mean, h4]

/-- The spec's example series, rounded to 4 decimals. -/
theorem round4_example :
    ([1/10, 3/20, 1/15, 2/15] : List ℚ).map round4 = [1000, 1500, 667, 1333] := by
  simp only [List.map_cons, List.map_nil, round4]
  norm_num [Int.floor_eq_iff]

/-- C6: for every source, with buckets ascending by bucket start, the
smoothed column equals the trailing moving average of the mean column
(window 3, minimum 1 sample): the k-th smoothed value is the mean of the
current and up to two preceding bucket means, and the per-source series
`[0.10, 0.20, -0.10, 0.30]` smooths to `[0.10, 0.15, 0.0667, 0.1333]`
at 4 decimals. -/
theorem smoothed_trailing_mean :
    (∀ (now lb size : Int) (ex : Bool) (recs : List ScoredRecord) (s : String),
      ((aggregate_over_time now lb size ex recs).filter fun tb => tb.source == s).map
          (·.smoothed)
        = rolling3 (((aggregate_over_time now lb size ex recs).filter
            fun tb => tb.source == s).map (·.compound))) ∧
    (∀ (l : List ℚ) (k : Nat), k < l.length →
      (rolling3 l)[k]? = some (mean ((l.take (k + 1)).drop (k - 2)))) ∧
    rolling3 [1/10, 2/10, -1/10, 3/10] = [1/10, 3/20, 1/15, 2/15] ∧
    ([1/10, 3/20, 1/15, 2/15] : List ℚ).map round4 = [1000, 1500, 667, 1333] :=
  ⟨agg_filter_source_smoothed, rolling3_getElem, rolling3_example, round4_example⟩

/-- Witness for C6 at the two-element series `[1, 2]`, index 1. -/
theorem smoothed_trailing_mean_witness :
    (rolling3 [(1 : ℚ), 2])[1]? = some (mean (([(1 : ℚ), 2].take (1 + 1)).drop (1 - 2))) :=
  smoothed_trailing_mean.2.1 [1, 2] 1 (by decide)

/-- One row of the per-source breakdown table. -/
structure SourceSummary where
  source : String
  headlines : Nat
  avg_compound : ℚ
  positives : Nat
  negatives : Nat
deriving DecidableEq

/-- The aggregation of one source's group: count, mean compound, and the
positive / negative label counts. -/
def summarise (recs : List ScoredRecord) (s : String) : SourceSummary :=
  ⟨s, (recs.filter fun r => r.source == s).length,
    mean ((recs.filter fun r => r.source == s).map (·.compound)),
    ((recs.filter fun r => r.source == s).filter fun r => r.label == "positive").length,
    ((recs.filter fun r => r.source == s).filter fun r => r.label == "negative").length⟩

/-- `≤` on the sort key `Avg_Compound`. -/
def avgLeB (a b : SourceSummary) : Bool := decide (a.avg_compound ≤ b.avg_compound)

/-- The contract of numpy's ascending argsort with the default
`kind='quicksort'`: some permutation of the rows that is ascending in the
key. Quicksort is documented as not stable, so nothing beyond this is
guaranteed; the sort enters the model as any function satisfying it. -/
def IsAscSortOf (sort : List SourceSummary → List SourceSummary) : Prop :=
  ∀ l : List SourceSummary,
    List.Perm (sort l) l ∧ (sort l).Pairwise fun a b => avgLeB a b = true

/-- pandas `sort_values(ascending=False)` via `nargsort`: reverse the
rows, argsort ascending with the supplied (quicksort-contract) argsort,
reverse the result. -/
def sortValuesDesc (sort : List SourceSummary → List SourceSummary)
    (l : List SourceSummary) : List SourceSummary :=
  (sort l.reverse).reverse

/-- `by_src`: group by source (keys ascending), aggregate each group, and
sort by average compound descending with the supplied argsort. -/
def by_source (sort : List SourceSummary → List SourceSummary)
    (recs : List ScoredRecord) : List SourceSummary :=
  sortValuesDesc sort ((srcsOf recs).map (summarise recs))

/-- The boolean character comparison agrees with the lexicographic
order. -/
theorem charListLtB_iff : ∀ as bs : List Char, charListLtB as bs = true ↔ as < bs := by
  intro as
  induction as with
  | nil =>
    intro bs
    cases bs with
    | nil =>
      simp only [charListLtB, Bool.false_eq_true, false_iff]
      intro h
      cases h
    | cons b bs =>
      simp only [charListLtB, true_iff]
      exact List.Lex.nil
  | cons a as ih =>
    intro bs
    cases bs with
    | nil =>
      simp only [charListLtB, Bool.false_eq_true, false_iff]
      intro h
      cases h
    | cons b bs =>
      unfold charListLtB
      by_cases h1 : a < b
      · simp only [if_pos h1, true_iff]
        exact List.Lex.rel h1
      · rw [if_neg h1]
        by_cases h2 : b < a
        · simp only [if_pos h2, Bool.false_eq_true, false_iff]
          intro h
          cases h with
          | cons htail => exact absurd h2 (lt_irrefl _)
          | rel hr => exact h1 hr
        · rw [if_neg h2, ih bs]
          have hab : a = b := le_antisymm (not_lt.mp h2) (not_lt.mp h1)
          subst hab
          constructor
          · intro h
            exact List.Lex.cons h
          · intro h
            cases h with
            | cons htail => exact htail
            | rel hr => exact absurd hr h1

/-- The boolean string strict order agrees with the library order. -/
theorem strLtB_iff (a b : String) : strLtB a b = true ↔ a < b := by
  rw [String.lt_iff_toList_lt]
  exact charListLtB_iff a.data b.data

/-- The boolean string order agrees with the library order. -/
theorem strLeB_iff (a b : String) : strLeB a b = true ↔ a ≤ b := by
  unfold strLeB
  rw [Bool.not_eq_true']
  constructor
  · intro h
    by_contra hle
    rw [not_le] at hle
    rw [(strLtB_iff b a).mpr hle] at h
    cases h
  · intro h
    cases hb : strLtB b a with
    | false => rfl
    | true => exact absurd ((strLtB_iff b a).mp hb) (not_lt.mpr h)

/-- Totality of the boolean string order. -/
theorem strLeB_total (a b : String) (h : strLeB a b = false) : strLeB b a = true := by
  rw [strLeB_iff]
  have hn : ¬ a ≤ b := fun hle => by rw [(strLeB_iff a b).mpr hle] at h; cases h
  exact le_of_lt (not_le.mp hn)

/-- Transitivity of the boolean string order. -/
theorem strLeB_trans (a b c : String) (h1 : strLeB a b = true) (h2 : strLeB b c = true) :
    strLeB a c = true :=
  (strLeB_iff a c).mpr (le_trans ((strLeB_iff a b).mp h1) ((strLeB_iff b c).mp h2))

/-- Inserting into an ascending list keeps it ascending. -/
theorem insertLe_pairwise_le {α : Type} (le : α → α → Bool)
    (htot : ∀ a b, le a b = false → le b a = true)
    (htrans : ∀ a b c, le a b = true → le b c = true → le a c = true) (x : α) :
    ∀ l : List α, l.Pairwise (fun a b => le a b = true) →
    (insertLe le x l).Pairwise (fun a b => le a b = true) := by
  intro l
  induction l with
  | nil =>
    intro _
    simp [insertLe]
  | cons y ys ih =>
    intro hp
    rcases List.pairwise_cons.mp hp with ⟨hy, hys⟩
    rw [insertLe]
    by_cases h : le y x = true
    · rw [if_pos h]
      refine List.pairwise_cons.mpr ⟨?_, ih hys⟩
      intro z hz
      rcases List.mem_cons.mp ((insertLe_perm le x ys).mem_iff.mp hz) with rfl | hz'
      · exact h
      · exact hy z hz'
    · rw [if_neg h]
      have hxy : le x y = true := htot y x (Bool.eq_false_iff.mpr h)
      refine List.pairwise_cons.mpr ⟨?_, hp⟩
      intro z hz
      rcases List.mem_cons.mp hz with rfl | hz'
      · exact hxy
      · exact htrans x y z hxy (hy z hz')

/-- The insertion fold of an ascending accumulator stays ascending. -/
theorem foldl_insertLe_pairwise_le {α : Type} (le : α → α → Bool)
    (htot : ∀ a b, le a b = false → le b a = true)
    (htrans : ∀ a b c, le a b = true → le b c = true → le a c = true) :
    ∀ (l acc : List α), acc.Pairwise (fun a b => le a b = true) →
    (l.foldl (fun a x => insertLe le x a) acc).Pairwise (fun a b => le a b = true) := by
  intro l
  induction l with
  | nil => intro acc h; exact h
  | cons x xs ih =>
    intro acc h
    rw [List.foldl_cons]
    exact ih _ (insertLe_pairwise_le le htot htrans x acc h)

/-- Insertion sort returns an ascending list. -/
theorem insertionSort_pairwise_le {α : Type} (le : α → α → Bool)
    (htot : ∀ a b, le a b = false → le b a = true)
    (htrans : ∀ a b c, le a b = true → le b c = true → le a c = true) (l : List α) :
    (insertionSort le l).Pairwise (fun a b => le a b = true) :=
  foldl_insertLe_pairwise_le le htot htrans l [] List.Pairwise.nil

/-- The distinct sources come out in strictly ascending order. -/
theorem srcsOf_pairwise_lt (recs : List ScoredRecord) :
    (srcsOf recs).Pairwise (fun a b => a < b) := by
  have hsorted : (srcsOf recs).Pairwise (fun a b => strLeB a b = true) :=
    insertionSort_pairwise_le strLeB strLeB_total strLeB_trans _
  have hnd : (srcsOf recs).Nodup := srcsOf_nodup recs
  exact (hsorted.and hnd).imp fun hab =>
    lt_of_le_of_ne ((strLeB_iff _ _).mp hab.1) hab.2

/-- The grouped summaries inherit the strictly ascending source order. -/
theorem grouped_pairwise_source (recs : List ScoredRecord) :
    ((srcsOf recs).map (summarise recs)).Pairwise
      (fun a b => a.source < b.source) := by
  rw [List.pairwise_map]
  exact (srcsOf_pairwise_lt recs).imp fun h => h

/-- Totality of the boolean average order. -/
theorem avgLeB_total (a b : SourceSummary) (h : avgLeB a b = false) : avgLeB b a = true := by
  unfold avgLeB at *
  rw [decide_eq_true_eq]
  rw [decide_eq_false_iff_not] at h
  exact le_of_lt (not_le.mp h)

/-- Transitivity of the boolean average order. -/
theorem avgLeB_trans (a b c : SourceSummary) (h1 : avgLeB a b = true)
    (h2 : avgLeB b c = true) : avgLeB a c = true := by
  unfold avgLeB at *
  rw [decide_eq_true_eq] at *
  exact le_trans h1 h2

/-- The stable insertion sort fulfils the argsort contract. -/
theorem insertionSort_isAscSortOf : IsAscSortOf (insertionSort avgLeB) := fun l =>
  ⟨insertionSort_perm avgLeB l,
    insertionSort_pairwise_le avgLeB avgLeB_total avgLeB_trans l⟩

/-- Insertion placing the new element before earlier equal keys (an
anti-stable comparison sort, equally consistent with the unstable
quicksort contract). -/
def insertBefore {α : Type} (le : α → α → Bool) (x : α) : List α → List α
  | [] => [x]
  | y :: ys => if le x y then x :: y :: ys else y :: insertBefore le x ys

/-- Anti-stable insertion permutes. -/
theorem insertBefore_perm {α : Type} (le : α → α → Bool) (x : α) :
    ∀ l : List α, List.Perm (insertBefore le x l) (x :: l) := by
  intro l
  induction l with
  | nil => exact List.Perm.refl _
  | cons y ys ih =>
    rw [insertBefore]
    by_cases h : le x y = true
    · rw [if_pos h]
    · rw [if_neg h]
      exact (ih.cons y).trans (List.Perm.swap x y ys)

/-- Anti-stable insertion into an ascending list keeps it ascending. -/
theorem insertBefore_pairwise_le {α : Type} (le : α → α → Bool)
    (htot : ∀ a b, le a b = false → le b a = true)
    (htrans : ∀ a b c, le a b = true → le b c = true → le a c = true) (x : α) :
    ∀ l : List α, l.Pairwise (fun a b => le a b = true) →
    (insertBefore le x l).Pairwise (fun a b => le a b = true) := by
  intro l
  induction l with
  | nil =>
    intro _
    simp [insertBefore]
  | cons y ys ih =>
    intro hp
    rcases List.pairwise_cons.mp hp with ⟨hy, hys⟩
    rw [insertBefore]
    by_cases h : le x y = true
    · rw [if_pos h]
      refine List.pairwise_cons.mpr ⟨?_, hp⟩
      intro z hz
      rcases List.mem_cons.mp hz with rfl | hz'
      · exact h
      · exact htrans x y z h (hy z hz')
    · rw [if_neg h]
      have hyx : le y x = true := htot x y (Bool.eq_false_iff.mpr h)
      refine List.pairwise_cons.mpr ⟨?_, ih hys⟩
      intro z hz
      rcases List.mem_cons.mp ((insertBefore_perm le x ys).mem_iff.mp hz) with rfl | hz'
      · exact hyx
      · exact hy z hz'

/-- The anti-stable sort. -/
def antiSort (l : List SourceSummary) : List SourceSummary :=
  l.foldl (fun acc x => insertBefore avgLeB x acc) []

/-- The anti-stable insertion fold permutes the processed elements onto
the accumulator. -/
theorem foldl_insertBefore_perm {α : Type} (le : α → α → Bool) :
    ∀ (l acc : List α),
    List.Perm (l.foldl (fun a x => insertBefore le x a) acc) (l ++ acc) := by
  intro l
  induction l with
  | nil => intro acc; exact List.Perm.refl _
  | cons x xs ih =>
    intro acc
    rw [List.foldl_cons]
    exact (ih (insertBefore le x acc)).trans
      ((List.Perm.append_left xs (insertBefore_perm le x acc)).trans List.perm_middle)

/-- The anti-stable insertion fold of an ascending accumulator stays
ascending. -/
theorem foldl_insertBefore_pairwise_le {α : Type} (le : α → α → Bool)
    (htot : ∀ a b, le a b = false → le b a = true)
    (htrans : ∀ a b c, le a b = true → le b c = true → le a c = true) :
    ∀ (l acc : List α), acc.Pairwise (fun a b => le a b = true) →
    (l.foldl (fun a x => insertBefore le x a) acc).Pairwise (fun a b => le a b = true) := by
  intro l
  induction l with
  | nil => intro acc h; exact h
  | cons x xs ih =>
    intro acc h
    rw [List.foldl_cons]
    exact ih _ (insertBefore_pairwise_le le htot htrans x acc h)

/-- The anti-stable sort also fulfils the argsort contract. -/
theorem antiSort_isAscSortOf : IsAscSortOf antiSort := by
  intro l
  constructor
  · have h := foldl_insertBefore_perm avgLeB l []
    rwa [List.append_nil] at h
  · exact foldl_insertBefore_pairwise_le avgLeB avgLeB_total avgLeB_trans l []
      List.Pairwise.nil

/-- A record of source `"A"` with compound `0`. -/
def rA : ScoredRecord := ⟨"A", "ta", "", "", 0, false, 0, 0, 0, 0, "neutral"⟩

/-- A record of source `"B"` with compound `0`: its source ties with
`rA`'s on average compound. -/
def rB : ScoredRecord := ⟨"B", "tb", "", "", 0, false, 0, 0, 0, 0, "neutral"⟩

/-- The summary row of source `"A"`. -/
def sumA : SourceSummary := summarise [rA, rB] "A"

/-- The summary row of source `"B"`. -/
def sumB : SourceSummary := summarise [rA, rB] "B"

/-- C3 counterexample: the program sorts the summary table with numpy
quicksort, which is documented as not stable, and implements no
tie-break; under a sort realization satisfying that contract
(`antiSort`), two sources with equal average compound come out in
DESCENDING alphabetical order (`["B", "A"]` although `"A" < "B"`), so
ascending tie order is not a property of the program. -/
theorem by_source_ties_cex :
    IsAscSortOf antiSort ∧
    (by_source antiSort [rA, rB]).map (fun x => x.source) = ["B", "A"] ∧
    (by_source antiSort [rA, rB]).map (fun x => x.avg_compound) = [0, 0] ∧
    ("A" : String) < "B" := by
  have hgA : sumA.avg_compound = 0 := by
    show mean (([rA, rB].filter fun r => r.source == "A").map (fun x => x.compound)) = 0
    rw [show ([rA, rB].filter fun r => r.source == "A") = [rA] from by decide]
    norm_num [mean, rA]
  have hgB : sumB.avg_compound = 0 := by
    show mean (([rA, rB].filter fun r => r.source == "B").map (fun x => x.compound)) = 0
    rw [show ([rA, rB].filter fun r => r.source == "B") = [rB] from by decide]
    norm_num [mean, rB]
  have hle : avgLeB sumA sumB = true := by
    unfold avgLeB
    rw [hgA, hgB]
    decide
  have hout : by_source antiSort [rA, rB] = [sumB, sumA] := by
    unfold by_source sortValuesDesc
    rw [show srcsOf [rA, rB] = ["A", "B"] from by decide]
    show (antiSort ([sumA, sumB].reverse)).reverse = [sumB, sumA]
    rw [show ([sumA, sumB] : List SourceSummary).reverse = [sumB, sumA] from rfl]
    unfold antiSort
    rw [List.foldl_cons, List.foldl_cons, List.foldl_nil,
      show insertBefore avgLeB sumB [] = [sumB] from rfl, insertBefore, if_pos hle]
    rfl
  refine ⟨antiSort_isAscSortOf, ?_, ?_, ?_⟩
  · rw [hout]
    rfl
  · rw [hout]
    simp [hgA, hgB]
  · rw [← strLtB_iff]
    decide

/-- C3 (amended): for every argsort realization permitted by the
quicksort contract, the per-source summary table is ordered by
`avg_compound` descending and is a permutation of the per-source
summaries (one row per distinct source); the relative order of sources
with equal average compound is not specified, since the sort is unstable
and no tie-break key exists. -/
theorem by_source_ordering (sort : List SourceSummary → List SourceSummary)
    (hsort : IsAscSortOf sort) (recs : List ScoredRecord) :
    (by_source sort recs).Pairwise
      (fun a b => b.avg_compound ≤ a.avg_compound) ∧
    List.Perm (by_source sort recs) ((srcsOf recs).map (summarise recs)) := by
  constructor
  · unfold by_source sortValuesDesc
    rw [List.pairwise_reverse]
    exact ((hsort _).2).imp fun h => by simpa [avgLeB] using h
  · unfold by_source sortValuesDesc
    exact (List.reverse_perm _).trans (((hsort _).1).trans (List.reverse_perm _))

/-- Witness for C3 (amended) at a contract-satisfying argsort and the
concrete two-source table. -/
theorem by_source_ordering_witness :
    (by_source (insertionSort avgLeB) [rA, rB]).Pairwise
      (fun a b => b.avg_compound ≤ a.avg_compound) ∧
    List.Perm (by_source (insertionSort avgLeB) [rA, rB])
      ((srcsOf [rA, rB]).map (summarise [rA, rB])) :=
  by_source_ordering (insertionSort avgLeB) insertionSort_isAscSortOf [rA, rB]
